import Mathlib

/-!
Verification development for the myshift-go repository.

This file gives a shallow embedding, in Lean 4, of the parts of the Go
program that the specification talks about, and proves (or refutes)
the corresponding properties.  Conventions of the embedding:

  - Go `time.Time` values are modelled as `Int` (Unix seconds, UTC);
    formatting with the RFC3339 layout is implemented over that model.
  - Go strings are Lean `String` values (a Lean `String` is a list of
    characters); where character-by-character reasoning is needed the
    embedding works directly on `List Char`.
  - Fallible Go functions (`(T, error)` results) become `Except String T`.
  - External effects (HTTP requests, filesystem access, environment
    variables, YAML parsing) are passed in as explicit function-valued
    parameters, so every command body is a pure function of its inputs.
-/

namespace MyShift

/-! ## Core data types (internal/types, src/unnamed/part_003) -/

/-- Unix-seconds model of Go `time.Time` (UTC instants). -/
abbrev Time := Int

/-- PagerDuty user object (`types.User`). -/
structure User where
  id : String
  name : String
  email : String
  utype : String
deriving DecidableEq

/-- Reference to a PagerDuty user (`types.UserReference`). -/
structure UserReference where
  id : String
  rtype : String
deriving DecidableEq

/-- PagerDuty schedule (`types.Schedule`). -/
structure Schedule where
  id : String
  name : String
  description : String
  timeZone : String
deriving DecidableEq

/-- On-call shift (`types.OnCall`); `endTime` embeds the Go field `End`. -/
structure OnCall where
  start : Time
  endTime : Time
  user : User
  schedule : Schedule
deriving DecidableEq

/-- Schedule override (`types.Override`). -/
structure Override where
  start : Time
  endTime : Time
  user : UserReference
  timeZone : String
deriving DecidableEq

/-- Application configuration (`types.Config`). -/
structure Config where
  pagerdutyToken : String
  scheduleId : String
  myUser : String
deriving DecidableEq

/-! ## RFC3339 formatting of the `Int` time model

Embeds `t.Format(time.RFC3339)` for a UTC instant.  The civil-date
computation is the standard days-to-date algorithm.
-/

/-- Left-pads a number below 100 to two digits. -/
def pad2 (n : Nat) : String :=
  if n < 10 then "0" ++ toString n else toString n

/-- Left-pads a year to four digits. -/
def padYear (y : Int) : String :=
  let a := y.natAbs
  let s := toString a
  let s := if a < 10 then "000" ++ s else if a < 100 then "00" ++ s
           else if a < 1000 then "0" ++ s else s
  if y < 0 then "-" ++ s else s

/-- Converts a count of days since 1970-01-01 to a civil (year, month, day). -/
def civilFromDays (z0 : Int) : Int × Nat × Nat :=
  let z := z0 + 719468
  let era := Int.fdiv z 146097
  let doe := (z - era * 146097).toNat
  let yoe := (doe - doe / 1460 + doe / 36524 - doe / 146096) / 365
  let y : Int := (yoe : Int) + era * 400
  let doy := doe - (365 * yoe + yoe / 4 - yoe / 100)
  let mp := (5 * doy + 2) / 153
  let d := doy - (153 * mp + 2) / 5 + 1
  let m := if mp < 10 then mp + 3 else mp - 9
  (if m ≤ 2 then y + 1 else y, m, d)

/-- Formats a UTC instant with the Go layout `time.RFC3339`
(`2006-01-02T15:04:05Z07:00`, offset `Z` for UTC). -/
def formatRFC3339 (t : Time) : String :=
  let days := Int.fdiv t 86400
  let secs := (t - days * 86400).toNat
  let c := civilFromDays days
  padYear c.1 ++ "-" ++ pad2 c.2.1 ++ "-" ++ pad2 c.2.2 ++ "T" ++
    pad2 (secs / 3600) ++ ":" ++ pad2 (secs % 3600 / 60) ++ ":" ++ pad2 (secs % 60) ++ "Z"

/-! ## iCalendar text escaping (internal/commands/formatters.go lines 170-179) -/

/-- Go `strings.ReplaceAll` specialised to a single-character pattern,
over the character list of a string.  Every call site in
`escapeICalText` uses a one-character pattern, so this specialisation
is exact there. -/
def replaceAllChar (pat : Char) (rep : List Char) : List Char → List Char
  | [] => []
  | c :: cs => (if c = pat then rep else [c]) ++ replaceAllChar pat rep cs

/-- Embeds `ICalFormatter.escapeICalText`: five sequential
`strings.ReplaceAll` passes, backslash first. -/
def escapeICalText (text : List Char) : List Char :=
  let t1 := replaceAllChar '\\' ['\\', '\\'] text
  let t2 := replaceAllChar ',' ['\\', ','] t1
  let t3 := replaceAllChar ';' ['\\', ';'] t2
  let t4 := replaceAllChar '\n' ['\\', 'n'] t3
  replaceAllChar '\r' ['\\', 'r'] t4

/-- Spec-side per-character escape map for iCalendar text, following the
words of the specification sentence about escaping. -/
def escCharSpec (c : Char) : List Char :=
  if c = '\\' then ['\\', '\\']
  else if c = ',' then ['\\', ',']
  else if c = ';' then ['\\', ';']
  else if c = '\n' then ['\\', 'n']
  else if c = '\r' then ['\\', 'r']
  else [c]

/-! ## Deduplication (internal/commands/formatters.go lines 196-219) -/

/-- Key built by the Go statement
`fmt.Sprintf("%s-%s-%s-%s", shift.User.ID, shift.Schedule.ID,
shift.Start.Format(time.RFC3339), shift.End.Format(time.RFC3339))`. -/
def onCallKey (shift : OnCall) : String :=
  shift.user.id ++ "-" ++ shift.schedule.id ++ "-" ++
    formatRFC3339 shift.start ++ "-" ++ formatRFC3339 shift.endTime

/-- Loop of `DeduplicateOnCalls`: `seen` is the set of keys already kept
(the Go `seenShifts` map, modelled as the list of keys mapped to true). -/
def dedupGo (seen : List String) : List OnCall → List OnCall
  | [] => []
  | shift :: rest =>
    let key := onCallKey shift
    if key ∈ seen then dedupGo seen rest
    else shift :: dedupGo (key :: seen) rest

/-- Embeds `DeduplicateOnCalls` (the Go early return on an empty slice
returns the same value as the loop does). -/
def DeduplicateOnCalls (onCalls : List OnCall) : List OnCall :=
  dedupGo [] onCalls

/-- Spec-side composite key named by the claim: the 4-tuple of user ID,
schedule ID, RFC3339-formatted start and RFC3339-formatted end. -/
def compositeKey (shift : OnCall) : String × String × String × String :=
  (shift.user.id, shift.schedule.id, formatRFC3339 shift.start, formatRFC3339 shift.endTime)

/-- First entry of the C1 counterexample: user ID contains a dash. -/
def cexC1a : OnCall := ⟨0, 0, ⟨"a-b", "", "", ""⟩, ⟨"c", "", "", ""⟩⟩

/-- Second entry of the C1 counterexample: a different composite key whose
dash-joined rendering coincides with that of the first entry. -/
def cexC1b : OnCall := ⟨0, 0, ⟨"a", "", "", ""⟩, ⟨"b-c", "", "", ""⟩⟩

/-! ## Formatter selection (internal/commands/formatters.go lines 182-191) -/

/-- ASCII model of Go `strings.ToLower` (the format strings involved are
ASCII-only). -/
def toLowerAscii (s : String) : String := ⟨s.data.map Char.toLower⟩

/-- Spec-side relation: two strings are equal ignoring (ASCII) case. -/
def eqIgnoreCase (a b : String) : Prop := toLowerAscii a = toLowerAscii b

instance (a b : String) : Decidable (eqIgnoreCase a b) := by
  unfold eqIgnoreCase; infer_instance

/-- The two formatters `GetFormatter` can return. -/
inductive Formatter
  | text
  | ical
deriving DecidableEq

/-- Embeds `GetFormatter`: a switch on the lower-cased format string. -/
def GetFormatter (format : String) : Except String Formatter :=
  let l := toLowerAscii format
  if l = "text" ∨ l = "txt" then .ok .text
  else if l = "ical" ∨ l = "ics" then .ok .ical
  else .error ("unsupported format: " ++ format ++ " (supported: text, ical)")

/-! ## HTTP status handling (internal/pagerduty/client.go lines 83-120) -/

/-- HTTP response as seen by makeRequest: the numeric code, the status
line text and the body. -/
structure HttpResponse where
  statusCode : Nat
  status : String
  body : String
deriving DecidableEq

/-- Embeds the response handling of `Client.makeRequest`: the outcome of
`httpClient.Do` (transport error or a response) is passed in, and the
status-code check of lines 113-117 decides the result. -/
def makeRequest (doResult : Except String HttpResponse) : Except String HttpResponse :=
  match doResult with
  | .error e => .error ("error making request: " ++ e)
  | .ok resp =>
    if resp.statusCode < 200 ∨ 300 ≤ resp.statusCode then
      .error ("API error: " ++ toString resp.statusCode ++ " " ++ resp.status ++
        " - " ++ resp.body)
    else .ok resp

/-! ## User lookup (internal/pagerduty/client.go lines 123-147) -/

/-- ASCII model of Go `strings.EqualFold`: equality up to ASCII case. -/
def equalFold (a b : String) : Bool := toLowerAscii a = toLowerAscii b

/-- Embeds `Client.FindUserByEmail` after the HTTP and JSON stages: the
decoded users array (or the decode error) is passed in; the loop returns
the first user whose email matches the query under EqualFold, else the
not-found error. -/
def FindUserByEmail (decoded : Except String (List User)) (email : String) :
    Except String User :=
  match decoded with
  | .error e => .error ("error decoding response: " ++ e)
  | .ok users =>
    match users.find? (fun u => equalFold u.email email) with
    | some u => .ok u
    | none => .error ("user with email " ++ email ++ " not found")

/-! ## Pagination (internal/pagerduty/client.go lines 169-204) -/

/-- Query parameters (`url.Values`): a map from keys to value lists. -/
abbrev Params := String → List String

/-- Embeds `url.Values.Set`: replace the values of one key. -/
def setParam (p : Params) (k v : String) : Params :=
  fun q => if q = k then [v] else p q

/-- Parameters of one page request (client.go lines 175-180): the caller
parameters copied, with offset and limit overridden. -/
def pageParams (params : Params) (offset limit : Nat) : Params :=
  setParam (setParam params "offset" (toString offset)) "limit" (toString limit)

/-- One decoded oncalls page: the `more` flag and the entries. -/
structure Page where
  more : Bool
  oncalls : List OnCall
deriving DecidableEq

/-- Loop of `Client.GetOnCalls`.  The HTTP-and-decode stage is modelled
by `resps`: the response to the i-th request of the loop (request error
and decode error are both an `Except.error`).  Returns the parameter
sets of the requests issued, and the program result; `none` means the
modelled response list ran out while the loop still wanted another page
(the model does not determine the program behaviour there). -/
def getOnCallsGo (params : Params) (limit : Nat) :
    List (Except String Page) → Nat → List OnCall →
      List Params × Option (Except String (List OnCall))
  | [], offset, _ => ([pageParams params offset limit], none)
  | .error e :: _, offset, _ => ([pageParams params offset limit], some (.error e))
  | .ok page :: rest, offset, acc =>
    let acc2 := acc ++ page.oncalls
    if page.more = false ∨ page.oncalls.length < limit then
      ([pageParams params offset limit], some (.ok acc2))
    else
      let r := getOnCallsGo params limit rest (offset + limit) acc2
      (pageParams params offset limit :: r.1, r.2)

/-- Embeds `Client.GetOnCalls`: offset starts at 0, page size 100. -/
def GetOnCalls (params : Params) (resps : List (Except String Page)) :
    List Params × Option (Except String (List OnCall)) :=
  getOnCallsGo params 100 resps 0 []

/-- One concrete on-call entry used by witnesses. -/
def wOnCallA : OnCall := ⟨100, 200, ⟨"U1", "Alice", "a@x", "user"⟩, ⟨"S1", "Primary", "", "UTC"⟩⟩

/-- Another concrete on-call entry used by witnesses. -/
def wOnCallB : OnCall := ⟨300, 400, ⟨"U2", "Bob", "b@x", "user"⟩, ⟨"S1", "Primary", "", "UTC"⟩⟩

/-! ## Command models (internal/commands, src/unnamed/part_007)

The commands call the PagerDuty client through the PagerDutyClient
interface.  The client is modelled as a record of pure response
functions, and each command returns the list of API calls it made (its
call trace) together with its result; console output is modelled as the
structured report the command prints.
-/

/-- Query parameters the commands build for the oncalls endpoint. -/
structure OnCallsQuery where
  sinceStr : String
  untilStr : String
  userIds : List String
  scheduleIds : List String
  overflow : String
deriving DecidableEq

/-- Pure model of the PagerDutyClient interface. -/
structure ApiClient where
  findUserByEmail : String → Except String User
  getOnCalls : OnCallsQuery → Except String (List OnCall)
  createOverrides : String → List Override → Except String Unit

/-- One API call made by a command, with its arguments. -/
inductive ApiCall
  | findUser (email : String)
  | getOnCalls (q : OnCallsQuery)
  | createOverrides (scheduleID : String) (overrides : List Override)
deriving DecidableEq

/-- What the next command prints, as structure instead of format strings. -/
inductive NextReport
  | currentlyOnCall (shiftEnd : Time)
  | nextShift (shiftStart shiftEnd : Time)
  | noUpcoming
deriving DecidableEq

/-- Loop of NextCommand.Execute that picks the next shift: starting from
the first element, replace the candidate whenever a strictly earlier
start is seen. -/
def selectNextGo (cur : OnCall) : List OnCall → OnCall
  | [] => cur
  | s :: rest => selectNextGo (if s.start < cur.start then s else cur) rest

/-- Embeds NextCommand.Execute (src/unnamed/part_007 lines 37-92).
AddDate(0, 0, days) is modelled as adding days in seconds. -/
def nextExecute (client : ApiClient) (scheduleID userEmail : String) (days : Nat)
    (now : Time) : List ApiCall × Except String NextReport :=
  if userEmail = "" then ([], .error "user email is required")
  else
    match client.findUserByEmail userEmail with
    | .error e => ([.findUser userEmail], .error ("error finding user: " ++ e))
    | .ok user =>
      let untilT := now + 86400 * (days : Int)
      let q : OnCallsQuery :=
        ⟨formatRFC3339 now, formatRFC3339 untilT, [user.id], [scheduleID], "true"⟩
      match client.getOnCalls q with
      | .error e =>
        ([.findUser userEmail, .getOnCalls q], .error ("error fetching shifts: " ++ e))
      | .ok onCalls =>
        let trace := [ApiCall.findUser userEmail, ApiCall.getOnCalls q]
        match onCalls with
        | [] => (trace, .ok .noUpcoming)
        | c0 :: _ =>
          let m := selectNextGo c0 onCalls
          if m.start < now ∧ now < m.endTime then (trace, .ok (.currentlyOnCall m.endTime))
          else if now < m.start then (trace, .ok (.nextShift m.start m.endTime))
          else (trace, .ok .noUpcoming)

/-- Embeds UpcomingCommand.Execute (internal/commands/upcoming.go
lines 39-80).  The formatter stage is abstracted: the result carries the
deduplicated-free on-call list handed to formatter.Format. -/
def upcomingExecute (client : ApiClient) (scheduleID userEmail : String) (days : Nat)
    (now : Time) : List ApiCall × Except String (List OnCall) :=
  if userEmail = "" then ([], .error "user email is required")
  else
    match client.findUserByEmail userEmail with
    | .error e => ([.findUser userEmail], .error ("error finding user: " ++ e))
    | .ok user =>
      let untilT := now + 86400 * (days : Int)
      let q : OnCallsQuery :=
        ⟨formatRFC3339 now, formatRFC3339 untilT, [user.id], [scheduleID], "true"⟩
      match client.getOnCalls q with
      | .error e =>
        ([.findUser userEmail, .getOnCalls q], .error ("error fetching shifts: " ++ e))
      | .ok onCalls => ([.findUser userEmail, .getOnCalls q], .ok onCalls)

/-- Embeds OverrideCommand.Execute (internal/commands/override.go
lines 38-104). -/
def overrideExecute (client : ApiClient) (scheduleID userEmail targetEmail : String)
    (start endT : Time) : List ApiCall × Except String Unit :=
  if userEmail = "" then ([], .error "user email is required")
  else if targetEmail = "" then ([], .error "target user email is required")
  else
    match client.findUserByEmail userEmail with
    | .error e =>
      ([.findUser userEmail], .error ("error finding user " ++ userEmail ++ ": " ++ e))
    | .ok user =>
      match client.findUserByEmail targetEmail with
      | .error e =>
        ([.findUser userEmail, .findUser targetEmail],
         .error ("error finding target user " ++ targetEmail ++ ": " ++ e))
      | .ok targetUser =>
        let q : OnCallsQuery :=
          ⟨formatRFC3339 start, formatRFC3339 endT, [targetUser.id], [scheduleID], "true"⟩
        let trace := [ApiCall.findUser userEmail, ApiCall.findUser targetEmail,
          ApiCall.getOnCalls q]
        match client.getOnCalls q with
        | .error e => (trace, .error ("error fetching target shifts: " ++ e))
        | .ok onCalls =>
          if onCalls = [] then
            (trace, .error ("no shifts found for target user " ++ targetEmail ++
              " in the specified time range"))
          else
            let overrides := onCalls.map (fun shift =>
              Override.mk shift.start shift.endTime ⟨user.id, "user_reference"⟩ "UTC")
            match client.createOverrides scheduleID overrides with
            | .error e =>
              (trace ++ [.createOverrides scheduleID overrides],
               .error ("error creating overrides: " ++ e))
            | .ok _ => (trace ++ [.createOverrides scheduleID overrides], .ok ())

/-- Concrete user used by command witnesses. -/
def wUser : User := ⟨"U1", "Alice", "alice@x", "user"⟩

/-- Concrete target user used by command witnesses. -/
def wTarget : User := ⟨"U2", "Bob", "bob@x", "user"⟩

/-- Concrete schedule used by command witnesses. -/
def wSched : Schedule := ⟨"S1", "Primary", "", "UTC"⟩

/-- Concrete client used by command witnesses: two users, a fixed
two-shift oncalls response, and overrides that always succeed. -/
def wClient : ApiClient :=
  ⟨fun e => if e = "alice@x" then .ok wUser
    else if e = "bob@x" then .ok wTarget else .error "no user",
   fun _ => .ok [⟨100, 200, wTarget, wSched⟩, ⟨50, 80, wTarget, wSched⟩],
   fun _ _ => .ok ()⟩

/-! ## Configuration loading (internal/config/config.go) -/

/-- Tests whether the needle (second argument) is an initial segment of
the haystack (first argument). -/
def leadsWith : List Char → List Char → Bool
  | _, [] => true
  | [], _ :: _ => false
  | c :: cs, d :: ds => c == d && leadsWith cs ds

/-- Model of Go strings.Contains: some suffix of the haystack starts
with the needle. -/
def containsSeq (sub : List Char) : List Char → Bool
  | [] => leadsWith [] sub
  | c :: cs => leadsWith (c :: cs) sub || containsSeq sub cs

/-- Model of Go strings.Contains on strings. -/
def stringContains (s sub : String) : Bool := containsSeq sub.data s.data

/-- Splits a character list at slash characters; structural recursion,
so it evaluates by plain reduction (model of splitting on the path
separator, as Go strings.Split does). -/
def splitSlash : List Char → List (List Char)
  | [] => [[]]
  | c :: cs =>
    let r := splitSlash cs
    if c = '/' then [] :: r
    else (c :: r.headD []) :: r.tail

/-- Model of Go path/filepath.Clean for slash-separated paths, in the
standard element-stack formulation of the same algorithm: drop empty
and dot elements, let dot-dot pop a previous element (absorbed at the
root of rooted paths, accumulated at the front of relative paths). -/
def filepathClean (path : String) : String :=
  let rooted := leadsWith path.data ['/']
  let comps := ((splitSlash path.data).map (fun l => String.mk l)).filter
    (fun e => e != "" && e != ".")
  let stack := comps.foldl (fun st e =>
    if e = ".." then
      if st ≠ [] ∧ st.getLast? ≠ some ".." then st.dropLast
      else if rooted = true then st
      else st ++ [".."]
    else st ++ [e]) ([] : List String)
  let joined := String.intercalate "/" stack
  if rooted = true then "/" ++ joined
  else if joined = "" then "." else joined

/-- Model of Go path/filepath.Join: drop empty elements, join the rest
with slashes and Clean the result; all-empty input gives the empty
string. -/
def filepathJoinList (elems : List String) : String :=
  let ne := elems.filter (fun e => e != "")
  if ne = [] then "" else filepathClean (String.intercalate "/" ne)

/-- Environment read by the config loader: the os.UserHomeDir outcome,
the XDG_CONFIG_HOME variable (empty when unset) and the runtime.GOOS
value. -/
structure Env where
  userHomeDir : Except String String
  xdgConfigHome : String
  goos : String

/-- Filesystem access used by Load: the os.Stat success test and the
file reader. -/
structure FS where
  statOk : String → Bool
  readFile : String → Except String String

/-- Embeds getConfigPaths (config.go lines 43-64). -/
def getConfigPaths (env : Env) : List String :=
  match env.userHomeDir with
  | .error _ => []
  | .ok homeDir =>
    let paths :=
      if env.xdgConfigHome ≠ "" then [filepathJoinList [env.xdgConfigHome, "myshift.yaml"]]
      else [filepathJoinList [homeDir, ".config", "myshift.yaml"]]
    if env.goos = "darwin" then
      paths ++ [filepathJoinList [homeDir, "Library", "Application Support", "myshift.yaml"]]
    else paths

/-- Single-quote character as a string, used inside error messages. -/
def sq : String := String.singleton (Char.ofNat 39)

/-- Embeds validate (config.go lines 144-150). -/
def validate (config : Config) : Except String Unit :=
  if config.pagerdutyToken = "" then
    .error (sq ++ "pagerduty_token" ++ sq ++ " is required in configuration")
  else .ok ()

/-- Embeds loadFromFile (config.go lines 104-131); the YAML parser of
the external yaml.v3 package is passed in as a function. -/
def loadFromFile (fs : FS) (parseYaml : String → Except String Config) (path : String) :
    Except String Config :=
  let cleanPath := filepathClean path
  if cleanPath ≠ path then .error ("invalid file path: " ++ path)
  else if stringContains cleanPath ".." then
    .error ("directory traversal not allowed in path: " ++ path)
  else
    match fs.readFile cleanPath with
    | .error e => .error ("error reading config file " ++ cleanPath ++ ": " ++ e)
    | .ok data =>
      match parseYaml data with
      | .error e => .error ("error parsing config file " ++ cleanPath ++ ": " ++ e)
      | .ok config =>
        match validate config with
        | .error e => .error ("invalid configuration in " ++ cleanPath ++ ": " ++ e)
        | .ok _ => .ok config

/-- Embeds Load (config.go lines 84-92): load from the first candidate
path whose Stat succeeds, else report that no file was found. -/
def Load (env : Env) (fs : FS) (parseYaml : String → Except String Config) :
    Except String Config :=
  match (getConfigPaths env).find? (fun p => fs.statOk p) with
  | some path => loadFromFile fs parseYaml path
  | none => .error ("no configuration file found. Please create one using " ++ sq ++
      "myshift config --print" ++ sq)

/-- C4 counterexample environment: XDG_CONFIG_HOME is a relative
dot-dot path, so the candidate path keeps its dot-dot prefix. -/
def cexEnv : Env := ⟨.ok "/home/u", "..", "linux"⟩

/-- C4 counterexample filesystem: exactly the candidate file exists and
reads fine. -/
def cexFS : FS :=
  ⟨fun p => p == "../myshift.yaml",
   fun p => if p = "../myshift.yaml" then .ok "pagerduty_token: tok" else .error "missing"⟩

/-- C4 counterexample parser: parses the file to a valid token. -/
def cexParse : String → Except String Config := fun _ => .ok ⟨"tok", "", ""⟩

/-- Environment for the C4 witness: an absolute XDG directory. -/
def wEnv : Env := ⟨.ok "/home/u", "/etc/xdg", "linux"⟩

/-- Filesystem for the C4 witness: the XDG candidate exists and reads a
token line. -/
def wFS : FS :=
  ⟨fun p => p == "/etc/xdg/myshift.yaml",
   fun p => if p = "/etc/xdg/myshift.yaml" then .ok "pagerduty_token: tok"
     else .error "missing"⟩

theorem dedupGo_sublist (seen : List String) (l : List OnCall) :
    (dedupGo seen l).Sublist l := by
  induction l generalizing seen with
  | nil => simp [dedupGo]
  | cons shift rest ih =>
    simp only [dedupGo]
    split
    · exact (ih seen).trans (List.sublist_cons_self _ _)
    · exact (ih _).cons₂ shift

theorem dedupGo_key_not_seen (seen : List String) (l : List OnCall) :
    ∀ t ∈ dedupGo seen l, onCallKey t ∉ seen := by
  induction l generalizing seen with
  | nil => simp [dedupGo]
  | cons shift rest ih =>
    simp only [dedupGo]
    split
    · exact ih seen
    · intro t ht
      rcases List.mem_cons.mp ht with h | h
      · subst h; assumption
      · intro hmem
        exact ih (onCallKey shift :: seen) t h (List.mem_cons_of_mem _ hmem)

theorem dedupGo_pairwise (seen : List String) (l : List OnCall) :
    (dedupGo seen l).Pairwise (fun a b => onCallKey a ≠ onCallKey b) := by
  induction l generalizing seen with
  | nil => simp [dedupGo]
  | cons shift rest ih =>
    simp only [dedupGo]
    split
    · exact ih seen
    · refine List.Pairwise.cons ?_ (ih _)
      intro t ht heq
      have := dedupGo_key_not_seen (onCallKey shift :: seen) rest t ht
      exact this (heq ▸ List.mem_cons_self _ _)

theorem dedupGo_covers (seen : List String) (l : List OnCall) :
    ∀ s ∈ l, onCallKey s ∈ seen ∨ ∃ t ∈ dedupGo seen l, onCallKey t = onCallKey s := by
  induction l generalizing seen with
  | nil => simp
  | cons shift rest ih =>
    intro s hs
    simp only [dedupGo]
    rcases List.mem_cons.mp hs with h | h
    · subst h
      by_cases hk : onCallKey s ∈ seen
      · exact Or.inl hk
      · refine Or.inr ?_
        refine ⟨s, ?_, rfl⟩
        simp [if_neg hk]
    · by_cases hk : onCallKey shift ∈ seen
      · rcases ih seen s h with h1 | ⟨t, ht, hkey⟩
        · exact Or.inl h1
        · exact Or.inr ⟨t, by simp [if_pos hk, ht], hkey⟩
      · rcases ih (onCallKey shift :: seen) s h with h1 | ⟨t, ht, hkey⟩
        · rcases List.mem_cons.mp h1 with h2 | h2
          · exact Or.inr ⟨shift, by simp [if_neg hk], h2.symm⟩
          · exact Or.inl h2
        · exact Or.inr ⟨t, by simp [if_neg hk, ht], hkey⟩

theorem dedupGo_first_occurrence (seen : List String) (l : List OnCall) :
    ∀ t ∈ dedupGo seen l,
      ∃ pre post, l = pre ++ t :: post ∧ ∀ x ∈ pre, onCallKey x ≠ onCallKey t := by
  induction l generalizing seen with
  | nil => simp [dedupGo]
  | cons shift rest ih =>
    intro t ht
    simp only [dedupGo] at ht
    by_cases hk : onCallKey shift ∈ seen
    · rw [if_pos hk] at ht
      rcases ih seen t ht with ⟨pre, post, hsplit, hpre⟩
      have hnot : onCallKey t ∉ seen := dedupGo_key_not_seen seen rest t ht
      refine ⟨shift :: pre, post, by simp [hsplit], ?_⟩
      intro x hx
      rcases List.mem_cons.mp hx with h2 | h2
      · intro heq
        refine hnot ?_
        rw [← heq, h2]
        exact hk
      · exact hpre x h2
    · rw [if_neg hk] at ht
      rcases List.mem_cons.mp ht with h | h
      · exact ⟨[], rest, by simp [h], by simp⟩
      · rcases ih (onCallKey shift :: seen) t h with ⟨pre, post, hsplit, hpre⟩
        have hnot : onCallKey t ∉ onCallKey shift :: seen :=
          dedupGo_key_not_seen _ rest t h
        refine ⟨shift :: pre, post, by simp [hsplit], ?_⟩
        intro x hx
        rcases List.mem_cons.mp hx with h2 | h2
        · intro heq
          refine hnot ?_
          rw [h2] at heq
          rw [← heq]
          exact List.mem_cons_self _ _
        · exact hpre x h2

/-- C1 (counterexample): the claim keys deduplication by the composite
4-tuple (user ID, schedule ID, RFC3339 start, RFC3339 end), but the code
keys it by the dash-joined string of those four parts.  Two entries with
distinct composite 4-tuples but identical joined strings collapse, so a
composite key occurring in the input is missing from the output,
refuting the claim as stated. -/
theorem C1_dedup_composite_key_counterexample :
    DeduplicateOnCalls [cexC1a, cexC1b] = [cexC1a] ∧
    compositeKey cexC1b ≠ compositeKey cexC1a ∧
    compositeKey cexC1b ∈ List.map compositeKey [cexC1a, cexC1b] ∧
    compositeKey cexC1b ∉ List.map compositeKey (DeduplicateOnCalls [cexC1a, cexC1b]) := by
  decide

/-- C1 (amended): DeduplicateOnCalls returns the subsequence of the input
that keeps exactly the first occurrence of each key, where the key is the
single dash-joined string of user ID, schedule ID, RFC3339 start and
RFC3339 end (distinct 4-tuples whose joined strings coincide are
identified): the output is a sublist of the input (same relative order),
no two output entries share the key, every key occurring in the input
occurs in the output, and each surviving entry is the first occurrence of
its key. -/
theorem C1_dedup_string_key_amended (l : List OnCall) :
    (DeduplicateOnCalls l).Sublist l ∧
    (DeduplicateOnCalls l).Pairwise (fun a b => onCallKey a ≠ onCallKey b) ∧
    (∀ s ∈ l, ∃ t ∈ DeduplicateOnCalls l, onCallKey t = onCallKey s) ∧
    (∀ t ∈ DeduplicateOnCalls l,
       ∃ pre post, l = pre ++ t :: post ∧ ∀ x ∈ pre, onCallKey x ≠ onCallKey t) := by
  refine ⟨dedupGo_sublist [] l, dedupGo_pairwise [] l, ?_, dedupGo_first_occurrence [] l⟩
  intro s hs
  rcases dedupGo_covers [] l s hs with h | h
  · simp at h
  · exact h

/-- C1 (witness): the amended theorem applied at a concrete input. -/
theorem C1_dedup_string_key_amended_witness :
    (DeduplicateOnCalls [cexC1a, cexC1b]).Sublist [cexC1a, cexC1b] ∧
    (DeduplicateOnCalls [cexC1a, cexC1b]).Pairwise (fun a b => onCallKey a ≠ onCallKey b) ∧
    (∀ s ∈ [cexC1a, cexC1b], ∃ t ∈ DeduplicateOnCalls [cexC1a, cexC1b],
       onCallKey t = onCallKey s) ∧
    (∀ t ∈ DeduplicateOnCalls [cexC1a, cexC1b],
       ∃ pre post, [cexC1a, cexC1b] = pre ++ t :: post ∧
         ∀ x ∈ pre, onCallKey x ≠ onCallKey t) :=
  C1_dedup_string_key_amended [cexC1a, cexC1b]

theorem replaceAllChar_append (pat : Char) (rep : List Char) (xs ys : List Char) :
    replaceAllChar pat rep (xs ++ ys) =
      replaceAllChar pat rep xs ++ replaceAllChar pat rep ys := by
  induction xs with
  | nil => simp [replaceAllChar]
  | cons c cs ih => simp [replaceAllChar, ih]

theorem escapeICalText_append (xs ys : List Char) :
    escapeICalText (xs ++ ys) = escapeICalText xs ++ escapeICalText ys := by
  simp [escapeICalText, replaceAllChar_append]

theorem escapeICalText_single (c : Char) : escapeICalText [c] = escCharSpec c := by
  by_cases h1 : c = '\\'
  · subst h1; decide
  · by_cases h2 : c = ','
    · subst h2; decide
    · by_cases h3 : c = ';'
      · subst h3; decide
      · by_cases h4 : c = '\n'
        · subst h4; decide
        · by_cases h5 : c = '\r'
          · subst h5; decide
          · simp [escapeICalText, replaceAllChar, escCharSpec, h1, h2, h3, h4, h5]

/-- C2: escapeICalText equals the concatenation, over the characters of
the input in order, of the per-character iCalendar escape map (backslash
to double backslash, comma, semicolon, LF and CR to their escaped forms,
all other characters unchanged); since the backslash pass runs first,
backslashes introduced by the later passes are never escaped again. -/
theorem C2_escapeICalText_charwise (text : List Char) :
    escapeICalText text = (text.map escCharSpec).flatten := by
  induction text with
  | nil => rfl
  | cons c cs ih =>
    have h : (c :: cs) = [c] ++ cs := rfl
    rw [h, escapeICalText_append, escapeICalText_single, ih]
    simp

/-- C7: GetFormatter recognizes exactly two formatters, case-insensitively:
strings equal ignoring case to text or txt give the plain-text formatter,
strings equal ignoring case to ical or ics give the iCalendar formatter,
and every other string gives an unsupported-format error. -/
theorem C7_GetFormatter_cases (s : String) :
    (GetFormatter s = .ok .text ↔ (eqIgnoreCase s "text" ∨ eqIgnoreCase s "txt")) ∧
    (GetFormatter s = .ok .ical ↔ (eqIgnoreCase s "ical" ∨ eqIgnoreCase s "ics")) ∧
    (¬(eqIgnoreCase s "text" ∨ eqIgnoreCase s "txt" ∨
        eqIgnoreCase s "ical" ∨ eqIgnoreCase s "ics") →
      GetFormatter s = .error ("unsupported format: " ++ s ++ " (supported: text, ical)")) := by
  have hA : toLowerAscii "text" = "text" := rfl
  have hB : toLowerAscii "txt" = "txt" := rfl
  have hC : toLowerAscii "ical" = "ical" := rfl
  have hD : toLowerAscii "ics" = "ics" := rfl
  simp only [eqIgnoreCase, hA, hB, hC, hD, GetFormatter]
  generalize toLowerAscii s = l
  by_cases h1 : l = "text"
  · subst h1; simp
  by_cases h2 : l = "txt"
  · subst h2; simp
  by_cases h3 : l = "ical"
  · subst h3; simp
  by_cases h4 : l = "ics"
  · subst h4; simp
  simp [h1, h2, h3, h4]

/-- C7 (witness): the theorem applied at the concrete inputs ICS and bogus. -/
theorem C7_GetFormatter_cases_witness :
    GetFormatter "ICS" = .ok .ical ∧
    GetFormatter "bogus" = .error "unsupported format: bogus (supported: text, ical)" := by
  refine ⟨?_, ?_⟩
  · exact ((C7_GetFormatter_cases "ICS").2.1).mpr (Or.inr (by decide))
  · exact (C7_GetFormatter_cases "bogus").2.2 (by decide)

/-- C8: makeRequest fails exactly on non-success HTTP status: a response
is returned without error if and only if the status code is in the
interval from 200 inclusive to 300 exclusive, and any other status code
yields an error embedding the status and the response body. -/
theorem C8_makeRequest_status (resp : HttpResponse) :
    (makeRequest (.ok resp) = .ok resp ↔
      (200 ≤ resp.statusCode ∧ resp.statusCode < 300)) ∧
    (resp.statusCode < 200 ∨ 300 ≤ resp.statusCode →
      makeRequest (.ok resp) = .error ("API error: " ++ toString resp.statusCode ++ " " ++
        resp.status ++ " - " ++ resp.body)) ∧
    (∀ r, makeRequest (.ok resp) = .ok r → 200 ≤ resp.statusCode ∧ resp.statusCode < 300) := by
  by_cases h : resp.statusCode < 200 ∨ 300 ≤ resp.statusCode
  · refine ⟨?_, fun _ => by simp [makeRequest, h], ?_⟩
    · simp only [makeRequest, if_pos h]
      constructor
      · intro hcontra; cases hcontra
      · intro hcontra; omega
    · intro r hr
      simp only [makeRequest, if_pos h] at hr
      cases hr
  · refine ⟨?_, fun hcontra => absurd hcontra h, ?_⟩
    · simp only [makeRequest, if_neg h]
      constructor
      · intro _; omega
      · intro _; trivial
    · intro r _; omega

/-- C8 (witness): the theorem applied at a concrete non-2xx and a
concrete 2xx response. -/
theorem C8_makeRequest_status_witness :
    makeRequest (.ok ⟨404, "404 Not Found", "nope"⟩) =
      .error ("API error: " ++ toString 404 ++ " " ++ "404 Not Found" ++ " - " ++ "nope") ∧
    makeRequest (.ok ⟨200, "200 OK", "data"⟩) = .ok ⟨200, "200 OK", "data"⟩ :=
  ⟨(C8_makeRequest_status ⟨404, "404 Not Found", "nope"⟩).2.1 (by decide),
   (C8_makeRequest_status ⟨200, "200 OK", "data"⟩).1.mpr (by decide)⟩

theorem find?_first_spec {α : Type} (p : α → Bool) (l : List α) :
    (∀ u, l.find? p = some u ↔
       ∃ pre post, l = pre ++ u :: post ∧ p u = true ∧ ∀ x ∈ pre, p x = false) ∧
    (l.find? p = none ↔ ∀ u ∈ l, p u = false) := by
  induction l with
  | nil =>
    constructor
    · intro u; simp
    · simp
  | cons a l ih =>
    constructor
    · intro u
      by_cases hp : p a = true
      · rw [List.find?_cons_of_pos _ hp]
        constructor
        · intro h
          injection h with h
          subst h
          exact ⟨[], l, rfl, hp, by simp⟩
        · rintro ⟨pre, post, hsplit, hu, hpre⟩
          cases pre with
          | nil =>
            simp only [List.nil_append, List.cons.injEq] at hsplit
            rw [hsplit.1]
          | cons b pre =>
            simp only [List.cons_append, List.cons.injEq] at hsplit
            obtain ⟨rfl, _⟩ := hsplit
            have hb := hpre a (by simp)
            rw [hb] at hp
            cases hp
      · have hp2 : ¬ p a := by simp [hp]
        rw [List.find?_cons_of_neg _ hp2]
        constructor
        · intro h
          rcases ((ih.1) u).mp h with ⟨pre, post, hsplit, hu, hpre⟩
          refine ⟨a :: pre, post, by simp [hsplit], hu, ?_⟩
          intro x hx
          rcases List.mem_cons.mp hx with h2 | h2
          · rw [h2]; simp [hp]
          · exact hpre x h2
        · rintro ⟨pre, post, hsplit, hu, hpre⟩
          cases pre with
          | nil =>
            simp only [List.nil_append, List.cons.injEq] at hsplit
            rw [hsplit.1] at hp
            exact absurd hu hp
          | cons b pre =>
            simp only [List.cons_append, List.cons.injEq] at hsplit
            obtain ⟨rfl, hsplit2⟩ := hsplit
            exact ((ih.1) u).mpr ⟨pre, post, hsplit2, hu, fun x hx => hpre x (by simp [hx])⟩
    · by_cases hp : p a = true
      · rw [List.find?_cons_of_pos _ hp]
        constructor
        · intro h; cases h
        · intro h
          have := h a (by simp)
          rw [this] at hp
          cases hp
      · have hp2 : ¬ p a := by simp [hp]
        rw [List.find?_cons_of_neg _ hp2]
        constructor
        · intro h
          intro u hu
          rcases List.mem_cons.mp hu with h2 | h2
          · rw [h2]; simp [hp]
          · exact (ih.2).mp h u h2
        · intro h
          exact (ih.2).mpr fun u hu => h u (by simp [hu])

/-- C9: FindUserByEmail matches emails case-insensitively (ASCII): it
returns exactly the first user of the decoded response whose email
equals the query under EqualFold, and returns the user-not-found error
exactly when no returned user matches this way, even when the response
contains candidate users. -/
theorem C9_FindUserByEmail_fold (users : List User) (email : String) :
    (∀ u, FindUserByEmail (.ok users) email = .ok u ↔
       ∃ pre post, users = pre ++ u :: post ∧ equalFold u.email email = true ∧
         ∀ x ∈ pre, equalFold x.email email = false) ∧
    (FindUserByEmail (.ok users) email =
        .error ("user with email " ++ email ++ " not found") ↔
      ∀ u ∈ users, equalFold u.email email = false) := by
  have hspec := find?_first_spec (fun u : User => equalFold u.email email) users
  have heq : FindUserByEmail (.ok users) email =
      match users.find? (fun u => equalFold u.email email) with
      | some u => .ok u
      | none => .error ("user with email " ++ email ++ " not found") := rfl
  constructor
  · intro u
    rw [heq]
    cases hf : users.find? (fun u => equalFold u.email email) with
    | none =>
      simp only []
      constructor
      · intro h; cases h
      · intro hex
        have := (hspec.1 u).mpr hex
        rw [hf] at this
        cases this
    | some v =>
      simp only []
      constructor
      · intro h
        injection h with h
        subst h
        exact (hspec.1 _).mp hf
      · intro hex
        have := (hspec.1 u).mpr hex
        rw [hf] at this
        injection this with h
        rw [h]
  · rw [heq]
    cases hf : users.find? (fun u => equalFold u.email email) with
    | none =>
      simp only []
      constructor
      · intro _; exact (hspec.2).mp hf
      · intro _; trivial
    | some v =>
      simp only []
      constructor
      · intro h; cases h
      · intro h
        have := (hspec.2).mpr h
        rw [hf] at this
        cases this

/-- C9 (witness): the theorem applied at a one-user response whose email
differs from the query only by ASCII case. -/
theorem C9_FindUserByEmail_fold_witness :
    FindUserByEmail (.ok [⟨"U1", "N", "A@B.c", "user"⟩]) "a@b.C" =
      .ok ⟨"U1", "N", "A@B.c", "user"⟩ :=
  ((C9_FindUserByEmail_fold [⟨"U1", "N", "A@B.c", "user"⟩] "a@b.C").1
      ⟨"U1", "N", "A@B.c", "user"⟩).mpr
    ⟨[], [], rfl, by decide, by simp⟩

theorem getOnCallsGo_cont (params : Params) (front : List Page)
    (hcont : ∀ p ∈ front, p.more = true ∧ ¬ p.oncalls.length < 100) :
    ∀ (tail : List (Except String Page)) (offset : Nat) (acc : List OnCall),
      getOnCallsGo params 100 (front.map .ok ++ tail) offset acc =
        ((List.range front.length).map (fun i => pageParams params (offset + 100 * i) 100) ++
           (getOnCallsGo params 100 tail (offset + 100 * front.length)
             (acc ++ (front.map Page.oncalls).flatten)).1,
         (getOnCallsGo params 100 tail (offset + 100 * front.length)
             (acc ++ (front.map Page.oncalls).flatten)).2) := by
  induction front with
  | nil => intro tail offset acc; simp
  | cons p front ih =>
    intro tail offset acc
    have hp := hcont p (by simp)
    have hrest : ∀ q ∈ front, q.more = true ∧ ¬ q.oncalls.length < 100 := by
      intro q hq; exact hcont q (by simp [hq])
    have hcond : ¬ (p.more = false ∨ p.oncalls.length < 100) := by
      rcases hp with ⟨h1, h2⟩
      simp [h1, h2]
    simp only [List.map_cons, List.cons_append, getOnCallsGo, if_neg hcond, List.append_eq]
    rw [ih hrest tail (offset + 100) (acc ++ p.oncalls)]
    have harith : offset + 100 + 100 * front.length = offset + 100 * (front.length + 1) := by
      ring
    have hmap : (List.range (front.length + 1)).map
          (fun i => pageParams params (offset + 100 * i) 100) =
        pageParams params offset 100 ::
          (List.range front.length).map (fun i => pageParams params (offset + 100 + 100 * i) 100) := by
      rw [List.range_succ_eq_map, List.map_cons, List.map_map]
      refine congrArg₂ _ (by simp) ?_
      refine List.map_congr_left ?_
      intro i _
      have : offset + 100 * (i + 1) = offset + 100 + 100 * i := by ring
      simp [Function.comp, this]
    simp only [List.length_cons, hmap, harith, List.map_cons, List.flatten_cons,
      List.append_assoc, List.cons_append]

/-- C3: GetOnCalls paginates sequentially.  With every earlier page
flagged more and holding at least the page size of 100 entries, the
requests issued are exactly the caller parameters with offset
0, 100, ... overridden (limit always 100); the result on a stopping page
(more false or fewer than 100 entries) is the in-order concatenation of
all fetched pages, and on a failing request or decode it is that error
with no entries; pageParams overrides exactly offset and limit and
forwards every other key unchanged. -/
theorem C3_GetOnCalls_pagination (params : Params) (front : List Page)
    (rest : List (Except String Page))
    (hcont : ∀ p ∈ front, p.more = true ∧ ¬ p.oncalls.length < 100) :
    (∀ last : Page, (last.more = false ∨ last.oncalls.length < 100) →
      GetOnCalls params (front.map .ok ++ .ok last :: rest) =
        ((List.range (front.length + 1)).map (fun i => pageParams params (100 * i) 100),
         some (.ok ((front.map Page.oncalls).flatten ++ last.oncalls)))) ∧
    (∀ e : String,
      GetOnCalls params (front.map .ok ++ .error e :: rest) =
        ((List.range (front.length + 1)).map (fun i => pageParams params (100 * i) 100),
         some (.error e))) ∧
    (∀ offset limit : Nat,
      pageParams params offset limit "offset" = [toString offset] ∧
      pageParams params offset limit "limit" = [toString limit] ∧
      ∀ k, k ≠ "offset" → k ≠ "limit" → pageParams params offset limit k = params k) := by
  refine ⟨?_, ?_, ?_⟩
  · intro last hstop
    rw [GetOnCalls, getOnCallsGo_cont params front hcont (.ok last :: rest) 0 []]
    have hstop2 : last.more = false ∨ last.oncalls.length < 100 := hstop
    simp only [getOnCallsGo, if_pos hstop2]
    rw [List.range_succ, List.map_append]
    simp
  · intro e
    rw [GetOnCalls, getOnCallsGo_cont params front hcont (.error e :: rest) 0 []]
    simp only [getOnCallsGo]
    rw [List.range_succ, List.map_append]
    simp
  · intro offset limit
    refine ⟨?_, ?_, ?_⟩
    · have h : ("offset" : String) ≠ "limit" := by decide
      simp [pageParams, setParam, h]
    · simp [pageParams, setParam]
    · intro k h1 h2
      simp [pageParams, setParam, h1, h2]

/-- C3 (witness): the theorem applied to one full page of 100 entries
followed by a short final page. -/
theorem C3_GetOnCalls_pagination_witness :
    GetOnCalls (fun _ => []) ([Page.mk true (List.replicate 100 wOnCallA)].map .ok ++
        .ok (Page.mk false [wOnCallB]) :: []) =
      ((List.range ([Page.mk true (List.replicate 100 wOnCallA)].length + 1)).map
         (fun i => pageParams (fun _ => []) (100 * i) 100),
       some (.ok (([Page.mk true (List.replicate 100 wOnCallA)].map Page.oncalls).flatten ++
         [wOnCallB]))) :=
  (C3_GetOnCalls_pagination (fun _ => []) [Page.mk true (List.replicate 100 wOnCallA)] []
      (by intro p hp; simp at hp; subst hp; constructor; rfl; simp)).1
    (Page.mk false [wOnCallB]) (Or.inl rfl)

theorem selectNextGo_spec (l : List OnCall) (cur : OnCall) :
    (selectNextGo cur l = cur ∧ ∀ x ∈ l, cur.start ≤ x.start) ∨
    (∃ pre post, l = pre ++ selectNextGo cur l :: post ∧
       (selectNextGo cur l).start < cur.start ∧
       (∀ x ∈ pre, (selectNextGo cur l).start < x.start) ∧
       (∀ x ∈ post, (selectNextGo cur l).start ≤ x.start)) := by
  induction l generalizing cur with
  | nil => exact Or.inl ⟨rfl, by simp⟩
  | cons s rest ih =>
    by_cases hs : s.start < cur.start
    · have hred : selectNextGo cur (s :: rest) = selectNextGo s rest := by
        simp [selectNextGo, if_pos hs]
      rcases ih s with ⟨heq, hall⟩ | ⟨pre, post, hsplit, hlt, hpre, hpost⟩
      · refine Or.inr ⟨[], rest, ?_, ?_, by simp, ?_⟩
        · simp [hred, heq]
        · rw [hred, heq]; exact hs
        · intro x hx; rw [hred, heq]; exact hall x hx
      · refine Or.inr ⟨s :: pre, post, ?_, ?_, ?_, ?_⟩
        · rw [hred]; exact congrArg (List.cons s) hsplit
        · rw [hred]; exact lt_trans hlt hs
        · intro x hx
          rcases List.mem_cons.mp hx with h2 | h2
          · rw [hred, h2]; exact hlt
          · rw [hred]; exact hpre x h2
        · intro x hx; rw [hred]; exact hpost x hx
    · have hred : selectNextGo cur (s :: rest) = selectNextGo cur rest := by
        simp [selectNextGo, if_neg hs]
      have hcs : cur.start ≤ s.start := le_of_not_lt hs
      rcases ih cur with ⟨heq, hall⟩ | ⟨pre, post, hsplit, hlt, hpre, hpost⟩
      · refine Or.inl ⟨by rw [hred, heq], ?_⟩
        intro x hx
        rcases List.mem_cons.mp hx with h2 | h2
        · rw [h2]; exact hcs
        · exact hall x h2
      · refine Or.inr ⟨s :: pre, post, ?_, ?_, ?_, ?_⟩
        · rw [hred]; exact congrArg (List.cons s) hsplit
        · rw [hred]; exact hlt
        · intro x hx
          rcases List.mem_cons.mp hx with h2 | h2
          · rw [hred, h2]; exact lt_of_lt_of_le hlt hcs
          · rw [hred]; exact hpre x h2
        · intro x hx; rw [hred]; exact hpost x hx

/-- C5: with a user lookup and a shift fetch that succeed, NextCommand
Execute on an empty fetched list reports no upcoming shifts with nil
error, and on a non-empty list selects the first shift of minimal start
time (entries before it start strictly later, entries after it start no
earlier), reports currently-on-call with that shift end exactly when its
start is before now and its end after now, and reports it as the next
shift exactly when its start is after now. -/
theorem C5_nextExecute_selects_min (client : ApiClient) (scheduleID userEmail : String)
    (days : Nat) (now : Time) (user : User) (l : List OnCall)
    (hemail : userEmail ≠ "")
    (huser : client.findUserByEmail userEmail = .ok user)
    (hcalls : client.getOnCalls
        ⟨formatRFC3339 now, formatRFC3339 (now + 86400 * (days : Int)),
         [user.id], [scheduleID], "true"⟩ = .ok l) :
    (l = [] → nextExecute client scheduleID userEmail days now =
       ([.findUser userEmail, .getOnCalls
           ⟨formatRFC3339 now, formatRFC3339 (now + 86400 * (days : Int)),
            [user.id], [scheduleID], "true"⟩], .ok .noUpcoming)) ∧
    (l ≠ [] → ∃ m pre post, l = pre ++ m :: post ∧
       (∀ x ∈ pre, m.start < x.start) ∧ (∀ x ∈ post, m.start ≤ x.start) ∧
       (nextExecute client scheduleID userEmail days now =
           ([.findUser userEmail, .getOnCalls
               ⟨formatRFC3339 now, formatRFC3339 (now + 86400 * (days : Int)),
                [user.id], [scheduleID], "true"⟩], .ok (.currentlyOnCall m.endTime)) ↔
         (m.start < now ∧ now < m.endTime)) ∧
       (nextExecute client scheduleID userEmail days now =
           ([.findUser userEmail, .getOnCalls
               ⟨formatRFC3339 now, formatRFC3339 (now + 86400 * (days : Int)),
                [user.id], [scheduleID], "true"⟩], .ok (.nextShift m.start m.endTime)) ↔
         now < m.start)) := by
  constructor
  · intro hl
    subst hl
    simp only [nextExecute, if_neg hemail, huser, hcalls]
  · intro hl
    cases l with
    | nil => exact absurd rfl hl
    | cons c0 rest =>
      have hredc : nextExecute client scheduleID userEmail days now =
          (if (selectNextGo c0 (c0 :: rest)).start < now ∧
              now < (selectNextGo c0 (c0 :: rest)).endTime
           then ([.findUser userEmail, .getOnCalls
               ⟨formatRFC3339 now, formatRFC3339 (now + 86400 * (days : Int)),
                [user.id], [scheduleID], "true"⟩],
             .ok (.currentlyOnCall (selectNextGo c0 (c0 :: rest)).endTime))
           else if now < (selectNextGo c0 (c0 :: rest)).start
           then ([.findUser userEmail, .getOnCalls
               ⟨formatRFC3339 now, formatRFC3339 (now + 86400 * (days : Int)),
                [user.id], [scheduleID], "true"⟩],
             .ok (.nextShift (selectNextGo c0 (c0 :: rest)).start
               (selectNextGo c0 (c0 :: rest)).endTime))
           else ([.findUser userEmail, .getOnCalls
               ⟨formatRFC3339 now, formatRFC3339 (now + 86400 * (days : Int)),
                [user.id], [scheduleID], "true"⟩], .ok .noUpcoming)) := by
        simp only [nextExecute, if_neg hemail, huser, hcalls]
      refine ⟨selectNextGo c0 (c0 :: rest), ?_⟩
      have hmem : ∃ pre post, c0 :: rest = pre ++ selectNextGo c0 (c0 :: rest) :: post ∧
          (∀ x ∈ pre, (selectNextGo c0 (c0 :: rest)).start < x.start) ∧
          (∀ x ∈ post, (selectNextGo c0 (c0 :: rest)).start ≤ x.start) := by
        rcases selectNextGo_spec (c0 :: rest) c0 with ⟨heq, hall⟩ | ⟨pre, post, h1, _, h3, h4⟩
        · refine ⟨[], rest, by simp [heq], by simp, ?_⟩
          intro x hx
          rw [heq]
          exact hall x (by simp [hx])
        · exact ⟨pre, post, h1, h3, h4⟩
      rcases hmem with ⟨pre, post, h1, h3, h4⟩
      refine ⟨pre, post, h1, h3, h4, ?_, ?_⟩
      · rw [hredc]
        by_cases hc1 : (selectNextGo c0 (c0 :: rest)).start < now ∧
            now < (selectNextGo c0 (c0 :: rest)).endTime
        · simp only [if_pos hc1]
          exact ⟨fun _ => hc1, fun _ => trivial⟩
        · simp only [if_neg hc1]
          constructor
          · intro h
            exfalso
            by_cases hc2 : now < (selectNextGo c0 (c0 :: rest)).start
            · rw [if_pos hc2] at h
              simp at h
            · rw [if_neg hc2] at h
              simp at h
          · intro h
            exact absurd h hc1
      · rw [hredc]
        by_cases hc1 : (selectNextGo c0 (c0 :: rest)).start < now ∧
            now < (selectNextGo c0 (c0 :: rest)).endTime
        · simp only [if_pos hc1]
          constructor
          · intro h
            simp at h
          · intro h
            exact absurd h (lt_asymm hc1.1)
        · simp only [if_neg hc1]
          by_cases hc2 : now < (selectNextGo c0 (c0 :: rest)).start
          · simp only [if_pos hc2]
            exact ⟨fun _ => hc2, fun _ => trivial⟩
          · simp only [if_neg hc2]
            constructor
            · intro h
              simp at h
            · intro h
              exact absurd h hc2

/-- C5 (witness): the theorem applied to the concrete client at now 60,
where the later-listed shift 50-80 is the minimal one and is current. -/
theorem C5_nextExecute_selects_min_witness :
    (([⟨100, 200, wTarget, wSched⟩, ⟨50, 80, wTarget, wSched⟩] : List OnCall) = [] →
      nextExecute wClient "S1" "alice@x" 7 60 =
        ([.findUser "alice@x", .getOnCalls
            ⟨formatRFC3339 60, formatRFC3339 (60 + 86400 * ((7 : Nat) : Int)),
             [wUser.id], ["S1"], "true"⟩], .ok .noUpcoming)) ∧
    (([⟨100, 200, wTarget, wSched⟩, ⟨50, 80, wTarget, wSched⟩] : List OnCall) ≠ [] →
      ∃ m pre post,
        ([⟨100, 200, wTarget, wSched⟩, ⟨50, 80, wTarget, wSched⟩] : List OnCall) =
          pre ++ m :: post ∧
        (∀ x ∈ pre, m.start < x.start) ∧ (∀ x ∈ post, m.start ≤ x.start) ∧
        (nextExecute wClient "S1" "alice@x" 7 60 =
            ([.findUser "alice@x", .getOnCalls
                ⟨formatRFC3339 60, formatRFC3339 (60 + 86400 * ((7 : Nat) : Int)),
                 [wUser.id], ["S1"], "true"⟩], .ok (.currentlyOnCall m.endTime)) ↔
          (m.start < 60 ∧ 60 < m.endTime)) ∧
        (nextExecute wClient "S1" "alice@x" 7 60 =
            ([.findUser "alice@x", .getOnCalls
                ⟨formatRFC3339 60, formatRFC3339 (60 + 86400 * ((7 : Nat) : Int)),
                 [wUser.id], ["S1"], "true"⟩], .ok (.nextShift m.start m.endTime)) ↔
          60 < m.start)) :=
  C5_nextExecute_selects_min wClient "S1" "alice@x" 7 60 wUser
    [⟨100, 200, wTarget, wSched⟩, ⟨50, 80, wTarget, wSched⟩] (by decide) rfl rfl

/-- C6: with both user lookups and the shift fetch succeeding,
OverrideCommand Execute returns the no-shifts error and creates nothing
when the target has no shifts in the window, and otherwise submits one
CreateOverrides call whose overrides are exactly one per fetched shift,
each carrying that shift start and end and the overriding user ID with
type user_reference. -/
theorem C6_overrideExecute_overrides (client : ApiClient)
    (scheduleID userEmail targetEmail : String) (start endT : Time)
    (user targetUser : User) (l : List OnCall)
    (hue : userEmail ≠ "") (hte : targetEmail ≠ "")
    (huser : client.findUserByEmail userEmail = .ok user)
    (htarget : client.findUserByEmail targetEmail = .ok targetUser)
    (hcalls : client.getOnCalls
        ⟨formatRFC3339 start, formatRFC3339 endT,
         [targetUser.id], [scheduleID], "true"⟩ = .ok l) :
    (l = [] → overrideExecute client scheduleID userEmail targetEmail start endT =
       ([.findUser userEmail, .findUser targetEmail,
         .getOnCalls ⟨formatRFC3339 start, formatRFC3339 endT,
           [targetUser.id], [scheduleID], "true"⟩],
        .error ("no shifts found for target user " ++ targetEmail ++
          " in the specified time range"))) ∧
    (l ≠ [] → (overrideExecute client scheduleID userEmail targetEmail start endT).1 =
       [.findUser userEmail, .findUser targetEmail,
        .getOnCalls ⟨formatRFC3339 start, formatRFC3339 endT,
          [targetUser.id], [scheduleID], "true"⟩,
        .createOverrides scheduleID (l.map (fun shift =>
          Override.mk shift.start shift.endTime ⟨user.id, "user_reference"⟩ "UTC"))]) := by
  constructor
  · intro hl
    subst hl
    simp only [overrideExecute, if_neg hue, if_neg hte, huser, htarget, hcalls]
    rfl
  · intro hl
    simp only [overrideExecute, if_neg hue, if_neg hte, huser, htarget, hcalls, if_neg hl]
    cases hc : client.createOverrides scheduleID (l.map (fun shift =>
        Override.mk shift.start shift.endTime ⟨user.id, "user_reference"⟩ "UTC")) with
    | error e => simp [hc]
    | ok u => simp [hc]

/-- C6 (witness): the theorem applied to the concrete client with a
two-shift window, yielding one override per fetched shift. -/
theorem C6_overrideExecute_overrides_witness :
    (overrideExecute wClient "S1" "alice@x" "bob@x" 0 1000).1 =
      [ApiCall.findUser "alice@x", ApiCall.findUser "bob@x",
       ApiCall.getOnCalls ⟨formatRFC3339 0, formatRFC3339 1000,
         [wTarget.id], ["S1"], "true"⟩,
       ApiCall.createOverrides "S1"
         (([⟨100, 200, wTarget, wSched⟩, ⟨50, 80, wTarget, wSched⟩] : List OnCall).map
           (fun shift =>
             Override.mk shift.start shift.endTime ⟨wUser.id, "user_reference"⟩ "UTC"))] :=
  (C6_overrideExecute_overrides wClient "S1" "alice@x" "bob@x" 0 1000 wUser wTarget
      [⟨100, 200, wTarget, wSched⟩, ⟨50, 80, wTarget, wSched⟩]
      (by decide) (by decide) rfl rfl rfl).2 (by decide)

/-- C10: the next, upcoming and override command Execute functions fail
immediately on an empty user email: the result is the required-email
error and the call trace is empty, so no user lookup, shift fetch or
override creation happens and external state is unchanged. -/
theorem C10_empty_email_no_calls (client : ApiClient) (scheduleID targetEmail : String)
    (days : Nat) (now start endT : Time) :
    nextExecute client scheduleID "" days now = ([], .error "user email is required") ∧
    upcomingExecute client scheduleID "" days now = ([], .error "user email is required") ∧
    overrideExecute client scheduleID "" targetEmail start endT =
      ([], .error "user email is required") := by
  refine ⟨?_, ?_, ?_⟩ <;> rfl

/-- Reduction of loadFromFile when both traversal guards pass. -/
theorem loadFromFile_guard_ok (fs : FS) (parseYaml : String → Except String Config)
    (p : String) (h1 : filepathClean p = p) (h2 : stringContains p ".." = false) :
    loadFromFile fs parseYaml p =
      match fs.readFile p with
      | .error e => .error ("error reading config file " ++ p ++ ": " ++ e)
      | .ok data =>
        match parseYaml data with
        | .error e => .error ("error parsing config file " ++ p ++ ": " ++ e)
        | .ok config =>
          match validate config with
          | .error e => .error ("invalid configuration in " ++ p ++ ": " ++ e)
          | .ok _ => .ok config := by
  simp only [loadFromFile]
  rw [if_neg (not_not_intro h1), h1, h2, if_neg Bool.false_ne_true]

/-- C4 (counterexample): the chosen candidate file exists, reads and
parses fine and has a non-empty pagerduty_token, yet Load returns an
error, because loadFromFile additionally rejects paths containing
dot-dot; this refutes the exactly-when error condition of the claim. -/
theorem C4_Load_traversal_counterexample :
    Load cexEnv cexFS cexParse =
      .error "directory traversal not allowed in path: ../myshift.yaml" ∧
    (getConfigPaths cexEnv).find? (fun p => cexFS.statOk p) = some "../myshift.yaml" ∧
    cexFS.readFile "../myshift.yaml" = .ok "pagerduty_token: tok" ∧
    cexParse "pagerduty_token: tok" = .ok ⟨"tok", "", ""⟩ ∧
    (⟨"tok", "", ""⟩ : Config).pagerdutyToken ≠ "" := by
  refine ⟨rfl, rfl, rfl, rfl, by decide⟩

/-- C4 (amended): getConfigPaths lists the XDG path when the variable is
non-empty, otherwise the home dot-config path, with the macOS path
appended on darwin; Load loads and validates the first candidate whose
file exists; it returns an error exactly when no candidate file exists,
the chosen path fails the directory-traversal guard (it is not in
cleaned form or contains dot-dot), the chosen file fails to read or to
parse as YAML, or the parsed configuration has an empty
pagerduty_token. -/
theorem C4_Load_config_amended (env : Env) (fs : FS)
    (parseYaml : String → Except String Config) :
    (∀ homeDir, env.userHomeDir = .ok homeDir →
      getConfigPaths env =
        (if env.xdgConfigHome ≠ "" then [filepathJoinList [env.xdgConfigHome, "myshift.yaml"]]
         else [filepathJoinList [homeDir, ".config", "myshift.yaml"]]) ++
        (if env.goos = "darwin" then
           [filepathJoinList [homeDir, "Library", "Application Support", "myshift.yaml"]]
         else [])) ∧
    ((getConfigPaths env).find? (fun p => fs.statOk p) = none →
      Load env fs parseYaml = .error ("no configuration file found. Please create one using " ++
        sq ++ "myshift config --print" ++ sq)) ∧
    (∀ p, (getConfigPaths env).find? (fun p => fs.statOk p) = some p →
      Load env fs parseYaml = loadFromFile fs parseYaml p ∧
      ((∃ config, Load env fs parseYaml = .ok config) ↔
        (filepathClean p = p ∧ stringContains p ".." = false ∧
         ∃ data config, fs.readFile p = .ok data ∧ parseYaml data = .ok config ∧
           config.pagerdutyToken ≠ ""))) := by
  refine ⟨?_, ?_, ?_⟩
  · intro homeDir h
    by_cases hg : env.goos = "darwin" <;> simp [getConfigPaths, h, hg]
  · intro h
    simp [Load, h]
  · intro p hp
    have hload : Load env fs parseYaml = loadFromFile fs parseYaml p := by
      simp [Load, hp]
    refine ⟨hload, ?_⟩
    rw [hload]
    by_cases h1 : filepathClean p = p
    · by_cases h2 : stringContains p ".." = true
      · have hres : loadFromFile fs parseYaml p =
            .error ("directory traversal not allowed in path: " ++ p) := by
          simp only [loadFromFile]
          rw [if_neg (not_not_intro h1), h1, if_pos h2]
        rw [hres]
        constructor
        · rintro ⟨config, hc⟩
          cases hc
        · rintro ⟨-, hfalse, -⟩
          rw [h2] at hfalse
          cases hfalse
      · have h2f : stringContains p ".." = false := by
          cases hsc : stringContains p ".." with
          | true => exact absurd hsc h2
          | false => rfl
        cases hr : fs.readFile p with
        | error e =>
          have hsteps : loadFromFile fs parseYaml p =
              .error ("error reading config file " ++ p ++ ": " ++ e) := by
            rw [loadFromFile_guard_ok fs parseYaml p h1 h2f, hr]
          rw [hsteps]
          constructor
          · rintro ⟨config, hc⟩
            cases hc
          · rintro ⟨-, -, data, config, hd, -, -⟩
            cases hd
        | ok data =>
          have hsteps2 : loadFromFile fs parseYaml p =
              (match parseYaml data with
               | .error e => .error ("error parsing config file " ++ p ++ ": " ++ e)
               | .ok config =>
                 match validate config with
                 | .error e => .error ("invalid configuration in " ++ p ++ ": " ++ e)
                 | .ok _ => .ok config) := by
            rw [loadFromFile_guard_ok fs parseYaml p h1 h2f, hr]
          cases hpar : parseYaml data with
          | error e =>
            have hstepsE : loadFromFile fs parseYaml p =
                .error ("error parsing config file " ++ p ++ ": " ++ e) := by
              rw [hsteps2, hpar]
            rw [hstepsE]
            constructor
            · rintro ⟨config, hc⟩
              cases hc
            · rintro ⟨-, -, data2, config, hd, hp2, -⟩
              injection hd with hd
              subst hd
              rw [hpar] at hp2
              cases hp2
          | ok config =>
            have hsteps3 : loadFromFile fs parseYaml p =
                (match validate config with
                 | .error e => .error ("invalid configuration in " ++ p ++ ": " ++ e)
                 | .ok _ => .ok config) := by
              rw [hsteps2, hpar]
            rw [hsteps3]
            by_cases htok : config.pagerdutyToken = ""
            · have hval : validate config =
                  .error (sq ++ "pagerduty_token" ++ sq ++ " is required in configuration") := by
                simp only [validate]
                exact if_pos htok
              rw [hval]
              constructor
              · rintro ⟨config2, hc⟩
                cases hc
              · rintro ⟨-, -, data2, config2, hd, hp2, htok2⟩
                injection hd with hd
                subst hd
                rw [hpar] at hp2
                injection hp2 with hp2
                subst hp2
                exact absurd htok htok2
            · have hval : validate config = .ok () := by
                simp only [validate]
                exact if_neg htok
              rw [hval]
              constructor
              · intro _
                exact ⟨h1, h2f, data, config, rfl, hpar, htok⟩
              · intro _
                exact ⟨config, rfl⟩
    · have hres : loadFromFile fs parseYaml p = .error ("invalid file path: " ++ p) := by
        simp only [loadFromFile]
        exact if_pos h1
      rw [hres]
      constructor
      · rintro ⟨config, hc⟩
        cases hc
      · rintro ⟨hcl, -, -⟩
        exact absurd hcl h1

/-- C4 (witness): the amended theorem applied to a concrete environment
whose first existing candidate is a clean absolute path. -/
theorem C4_Load_config_amended_witness :
    Load wEnv wFS cexParse = loadFromFile wFS cexParse "/etc/xdg/myshift.yaml" ∧
    ((∃ config, Load wEnv wFS cexParse = .ok config) ↔
      (filepathClean "/etc/xdg/myshift.yaml" = "/etc/xdg/myshift.yaml" ∧
       stringContains "/etc/xdg/myshift.yaml" ".." = false ∧
       ∃ data config, wFS.readFile "/etc/xdg/myshift.yaml" = .ok data ∧
         cexParse data = .ok config ∧ config.pagerdutyToken ≠ "")) :=
  (C4_Load_config_amended wEnv wFS cexParse).2.2 "/etc/xdg/myshift.yaml" (by decide)

end MyShift
